import Mathlib

/-!
Verification of the IDA-CFP extraction-and-aggregation pipeline.

The development shallowly embeds the Python sources:
  * `pkg/astparser/astparser.py`  — AST traversal, `ConstantVisitor`,
    `FuncDefVisitor`, `AstParser.build_function_str_pairs`;
  * `pkg/build/lib/record/record.py` — the `Record` aggregation store
    (`tpl_list`, `str_func_dict`) and the adjudication pipeline
    `integrate_list_to_dict`;
  * `pkg/build/lib/core/core.py` — `Core.process_files`;
  * `pkg/build/lib/interface/interface.py` — the backslash collapsing of
    `process_out_data`.

Syntax trees produced by the external parser are modelled by `CNode`:
a node is a constant carrying its literal token text, a function
definition carrying its declared name and child nodes, or any other
node kind carrying child nodes.
-/

/-- A node of the external parser's syntax tree, as consumed by the
visitors in `astparser.py`.  `constant` carries the token text
(`node.value`), `funcDef` carries `node.decl.name` and the node's
children, and `other` stands for every remaining node kind. -/
inductive CNode where
  | constant (value : String)
  | funcDef (dname : String) (children : List CNode)
  | other (children : List CNode)
deriving Repr

/-- ASCII whitespace accepted (and stripped) by Python's `int()`
before the sign and digits. -/
def pyIsSpace (c : Char) : Bool :=
  decide (c = ' ') || decide (c = '\t') || decide (c = '\n') ||
    decide (c = '\r') || decide (c = '\x0b') || decide (c = '\x0c')

/-- Strip leading and trailing whitespace, as Python's `int()` does to
its string argument. -/
def pyStripWs (l : List Char) : List Char :=
  ((l.dropWhile pyIsSpace).reverse.dropWhile pyIsSpace).reverse

/-- No two adjacent underscores in the digit part (Python allows single
underscores strictly between digits). -/
def noDoubleUnderscore : List Char → Bool
  | c₁ :: c₂ :: rest =>
      !(decide (c₁ = '_') && decide (c₂ = '_')) && noDoubleUnderscore (c₂ :: rest)
  | _ => true

/-- The digit part accepted by Python's `int()` in base 10:
nonempty, made of decimal digits and underscores, beginning and ending
with a digit, with no two adjacent underscores. -/
def pyIntDigits (l : List Char) : Bool :=
  !l.isEmpty &&
    l.all (fun c => c.isDigit || decide (c = '_')) &&
    (match l.head? with | some c => c.isDigit | none => false) &&
    (match l.getLast? with | some c => c.isDigit | none => false) &&
    noDoubleUnderscore l

/-- Model of `int(node.value)` succeeding (`astparser.py` line 183):
optional surrounding whitespace, an optional sign, then a base-10
digit run. -/
def pyIntParses (s : String) : Bool :=
  match pyStripWs s.data with
  | c :: rest =>
      if decide (c = '+') || decide (c = '-') then pyIntDigits rest
      else pyIntDigits (c :: rest)
  | [] => false

/-- Model of `node.value.replace('"', '')` (`astparser.py` line 188):
every double-quote character is removed from the token text. -/
def removeQuotes (s : String) : String :=
  ⟨s.data.filter (fun c => decide (c ≠ '"'))⟩

/-- Embedding of `ConstantVisitor.visit_Constant` (`astparser.py` lines 168-190):
if the token text parses as an integer the node is dropped; otherwise
the quote-stripped text is appended to `self.values` when nonempty. -/
def visit_Constant (value : String) (values : List String) : List String :=
  if pyIntParses value then values
  else
    let stripped := removeQuotes value
    if stripped = "" then values else values ++ [stripped]

mutual

/-- Embedding of `ConstantVisitor`'s generic traversal: dispatch to
`visit_Constant` on constant nodes, recurse into the children of every
other node (`c_ast.NodeVisitor.generic_visit`).  The `values` argument
threads the visitor's `self.values` accumulator. -/
def constVisit : CNode → List String → List String
  | .constant v, values => visit_Constant v values
  | .funcDef _ children, values => constVisitList children values
  | .other children, values => constVisitList children values

/-- Traverse a list of sibling nodes left to right, threading the
accumulated `self.values`. -/
def constVisitList : List CNode → List String → List String
  | [], values => values
  | n :: rest, values => constVisitList rest (constVisit n values)

end

mutual

/-- Embedding of `FuncDefVisitor`'s traversal (`astparser.py` lines 193-222):
`visit_FuncDef` records the node (here its name and children) and does
not call `generic_visit`, so it never descends into a recorded
function; all other node kinds are traversed generically. -/
def funcVisit : CNode → List (String × List CNode)
  | .constant _ => []
  | .funcDef n children => [(n, children)]
  | .other children => funcVisitList children

/-- Traverse sibling nodes left to right collecting function
definitions. -/
def funcVisitList : List CNode → List (String × List CNode)
  | [] => []
  | n :: rest => funcVisit n ++ funcVisitList rest

end

/-- Embedding of `AstParser.locate_functions` (`astparser.py` lines 115-134): run the
`FuncDefVisitor` over the tree and return the recorded nodes. -/
def locate_functions (ast : CNode) : List (String × List CNode) :=
  funcVisit ast

/-- Embedding of `AstParser.locate_func_strings` (`astparser.py` lines 136-148): run
the shared `ConstantVisitor` over one function node.  The visitor
appends to — and returns — its own `self.values` list, so the result
aliases the visitor state passed in as `values`. -/
def locate_func_strings (values : List String) (f : String × List CNode) :
    List String :=
  constVisitList f.2 values

/-- The loop body of `AstParser.build_function_str_pairs`
(`astparser.py` lines 94-104).  The Python local `function_strings`
starts as a fresh empty list but is rebound on the first iteration to
the visitor's `self.values`; from the second iteration on,
`function_strings.clear()` therefore clears the visitor's accumulator
itself.  `values` threads `self.values`; `first` records whether
`function_strings` still names the original fresh list. -/
def builderLoop :
    List (String × List CNode) → List String → Bool → List (String × String)
  | [], _, _ => []
  | (n, children) :: rest, values, first =>
      let cleared := if first then values else []
      let values' := locate_func_strings cleared (n, children)
      values'.map (fun s => (n, s)) ++ builderLoop rest values' false

/-- The pairs appended to `Record.tpl_list` by one call of
`AstParser.build_function_str_pairs` on a freshly initialised parser
(`self.const_visitor.values = []`, first loop iteration pending). -/
def newFilePairs (ast : CNode) : List (String × String) :=
  builderLoop (locate_functions ast) [] true

/-- Python-dict lookup: value of the first (and, with the key-nodup
invariant, only) entry whose key equals `k`. -/
def dictLookup (d : List (String × String)) (k : String) : Option String :=
  (d.find? (fun p => decide (p.1 = k))).map Prod.snd

/-- Python-dict single-key upsert: an existing key keeps its position
and gets the new value, a new key is appended at the end.  This is the
per-key semantics of `dict.update` used by `Record.add_unique_to_dict`. -/
def dictUpsert (d : List (String × String)) (k v : String) :
    List (String × String) :=
  if d.any (fun p => decide (p.1 = k)) then
    d.map (fun p => if decide (p.1 = k) then (k, v) else p)
  else d ++ [(k, v)]

/-- Model of `d.update(...)` over a list of key-value pairs, left to right. -/
def dictUpdate (d ps : List (String × String)) : List (String × String) :=
  ps.foldl (fun acc p => dictUpsert acc p.1 p.2) d

/-- Python's `dict(pairs)` constructor: fold the pairs into an empty
dict (first occurrence fixes the position, last occurrence the value). -/
def dictOfPairs (ps : List (String × String)) : List (String × String) :=
  dictUpdate [] ps

/-- The mutable class state of `Record` (`record.py` lines 43, 54):
the output dictionary `str_func_dict` (modelled as an insertion-ordered
association list) and the candidate list of tuples `tpl_list`. -/
structure RState where
  str_func_dict : List (String × String)
  tpl_list : List (String × String)
deriving Repr, DecidableEq

/-- Embedding of `Record.add_func_str_to_list` (`record.py` lines 146-157): append
one `(function, string)` tuple to the candidate list. -/
def add_func_str_to_list (st : RState) (new_func new_string : String) :
    RState :=
  { st with tpl_list := st.tpl_list ++ [(new_func, new_string)] }

/-- Embedding of `Record.remove_non_unique_from_list` (`record.py` lines 79-109):
collect all strings, list those occurring more than once, then filter
the tuple list once per such string. -/
def remove_non_unique_from_list (l : List (String × String)) :
    List (String × String) :=
  let strings := l.map Prod.snd
  let to_remove := strings.filter (fun s => decide (1 < strings.count s))
  to_remove.foldl (fun acc r => acc.filter (fun i => decide (i.2 ≠ r))) l

/-- Embedding of `Record.sort_tmp_list` (`record.py` lines 111-120): stable sort of
the tuple list by function name (`key=operator.itemgetter(0)`). -/
def sort_tmp_list (l : List (String × String)) : List (String × String) :=
  l.insertionSort (fun a b => a.1 ≤ b.1)

/-- Embedding of `Record.add_unique_to_dict` (`record.py` lines 122-144): reverse
each tuple and merge `dict(reverse)` into `str_func_dict` via
`dict.update`. -/
def add_unique_to_dict (st : RState) : RState :=
  let reverse := st.tpl_list.map (fun t => (t.2, t.1))
  { st with
    str_func_dict := dictUpdate st.str_func_dict (dictOfPairs reverse) }

/-- Embedding of `Record.integrate_list_to_dict` (`record.py` lines 56-77): remove
non-unique strings, sort the survivors, fold them into the dictionary.
No step clears `tpl_list`. -/
def integrate_list_to_dict (st : RState) : RState :=
  add_unique_to_dict
    { st with
      tpl_list := sort_tmp_list (remove_non_unique_from_list st.tpl_list) }

/-- Embedding of `AstParser.build_function_str_pairs` (`astparser.py` lines 73-113)
acting on the `Record` state: append the per-function pairs, then
`Record.sort_tmp_list()`.  The trailing `self.__init__()` resets the
visitor state, so the next call again starts from `[]`/first-iteration. -/
def build_function_str_pairs (st : RState) (ast : CNode) : RState :=
  { st with tpl_list := sort_tmp_list (st.tpl_list ++ newFilePairs ast) }

/-- Constant `AstParser.MIN_BYTES` (`astparser.py` line 32). -/
def MIN_BYTES : Nat := 10

/-- The fatal errors reachable from `Core.process_files`. -/
inductive PipelineError where
  | noFilesSpecified
  | astEmpty (file : String)
  | noFunctionsFound (file : String)
deriving Repr, DecidableEq

/-- One input file at the tree-producer boundary: its path, the byte
size `sys.getsizeof` reports for the produced tree, and the tree. -/
structure SourceFile where
  name : String
  astSize : Nat
  ast : CNode

/-- Embedding of `AstParser.process_ast` (`astparser.py` lines 46-71): fail when the
tree is below `MIN_BYTES`; fail with `NoFunctionsFoundError` when the
`Verifier` inside `locate_functions` counts zero functions; otherwise
build the function/string pairs. -/
def process_ast (st : RState) (f : SourceFile) : Except PipelineError RState :=
  if f.astSize < MIN_BYTES then .error (.astEmpty f.name)
  else if (locate_functions f.ast).isEmpty then .error (.noFunctionsFound f.name)
  else .ok (build_function_str_pairs st f.ast)

/-- The per-file loop of `Core.process_files` (`core.py` lines 68-70):
request the tree for each file in order (the request is recorded in the
returned trace), process it, and after the last file run
`Record.integrate_list_to_dict`.  An error carries the `Record` state
and the trees requested up to that point. -/
def processFilesLoop (files : List SourceFile) (st : RState)
    (requested : List String) :
    Except (PipelineError × RState × List String) (RState × List String) :=
  match files with
  | [] => .ok (integrate_list_to_dict st, requested)
  | f :: rest =>
      match process_ast st f with
      | .error e => .error (e, st, requested ++ [f.name])
      | .ok st' => processFilesLoop rest st' (requested ++ [f.name])

/-- Embedding of `Core.process_files` (`core.py` lines 52-75): raise
`NoFilesSpecifiedError` on an empty file list before any tree is
requested, otherwise run the per-file loop and the final integration. -/
def process_files (files : List SourceFile) (st : RState) :
    Except (PipelineError × RState × List String) (RState × List String) :=
  if files.isEmpty then .error (.noFilesSpecified, st, [])
  else processFilesLoop files st []

/-- Embedding of `Interface.process_out_data` (`interface.py` lines 119-130):
`str.replace` of two backslashes by one, scanning left to right over
non-overlapping occurrences. -/
def collapseBackslashes : List Char → List Char
  | [] => []
  | [c] => [c]
  | c₁ :: c₂ :: rest =>
      if decide (c₁ = '\\') && decide (c₂ = '\\') then
        '\\' :: collapseBackslashes rest
      else c₁ :: collapseBackslashes (c₂ :: rest)

/-- The value-level normalization named by the specification: quote
stripping at extraction followed by the backslash collapsing of
`Interface.process_out_data`. -/
def normalizeValue (s : String) : String :=
  ⟨collapseBackslashes (removeQuotes s).data⟩

/-- Whether the text contains two adjacent backslashes (the redex of
`collapseBackslashes`). -/
def hasAdjacentBackslashes : List Char → Bool
  | c₁ :: c₂ :: rest =>
      (decide (c₁ = '\\') && decide (c₂ = '\\')) ||
        hasAdjacentBackslashes (c₂ :: rest)
  | _ => false

/-- Modelled from the spec (§3, LiteralValue): "the value has any
wrapping quote characters stripped and escaped backslash pairs
collapsed to single backslashes before it is considered final".  The
wrapping-quote removal drops one leading and one trailing double quote
when both are present; this definition follows the specification's
words and is compared against the code's `visit_Constant`. -/
def specStripWrappingQuotes (s : String) : String :=
  match s.data with
  | '"' :: rest =>
      match rest.getLast? with
      | some '"' => ⟨rest.dropLast⟩
      | _ => s
  | _ => s

/-- Modelled from the spec (§3, LiteralValue): the final literal value
the specification prescribes for a constant node's text. -/
def specFinalValue (s : String) : String :=
  ⟨collapseBackslashes (specStripWrappingQuotes s).data⟩

/-! ### Association Builder lemmas -/

/-- From the second loop iteration on, `function_strings` aliases the
visitor's `self.values`, so the `clear()` wipes any residual state:
the pairs produced no longer depend on the incoming `values`. -/
theorem builderLoop_false (funcs : List (String × List CNode)) :
    ∀ values, builderLoop funcs values false =
      funcs.flatMap
        (fun f => (locate_func_strings [] f).map (fun s => (f.1, s))) := by
  induction funcs with
  | nil => intro values; rfl
  | cons f rest ih =>
      intro values
      obtain ⟨n, children⟩ := f
      simp only [builderLoop, if_neg Bool.false_ne_true, List.flatMap_cons, ih]

/-- A fresh builder pass (visitor values empty, first iteration
pending) produces, for each located function, exactly the pairs built
from that function's own extraction. -/
theorem builderLoop_fresh (funcs : List (String × List CNode)) :
    builderLoop funcs [] true =
      funcs.flatMap
        (fun f => (locate_func_strings [] f).map (fun s => (f.1, s))) := by
  cases funcs with
  | nil => rfl
  | cons f rest =>
      obtain ⟨n, children⟩ := f
      simp only [builderLoop, ite_self, List.flatMap_cons, builderLoop_false]

/-! ### `remove_non_unique_from_list` lemmas -/

/-- Iterating the removal filter over the removal set equals a single
filter keeping tuples whose string avoids the whole set. -/
theorem foldl_filter_eq_filter_all (rs : List String) :
    ∀ (l : List (String × String)),
      rs.foldl (fun acc r => acc.filter (fun i => decide (i.2 ≠ r))) l =
        l.filter (fun i => rs.all (fun r => decide (i.2 ≠ r))) := by
  induction rs with
  | nil =>
      intro l
      simp
  | cons r rs ih =>
      intro l
      rw [List.foldl_cons, ih, List.filter_filter]
      refine List.filter_congr (fun i _ => ?_)
      simp [Bool.and_comm]

/-- Lemma: `remove_non_unique_from_list` keeps exactly the tuples whose string
occurs once in the whole candidate list. -/
theorem remove_non_unique_eq_filter (l : List (String × String)) :
    remove_non_unique_from_list l =
      l.filter (fun i => decide ((l.map Prod.snd).count i.2 = 1)) := by
  unfold remove_non_unique_from_list
  rw [foldl_filter_eq_filter_all]
  refine List.filter_congr (fun i hi => ?_)
  rw [Bool.eq_iff_iff, List.all_eq_true, decide_eq_true_eq]
  have hmem : i.2 ∈ l.map Prod.snd := List.mem_map_of_mem Prod.snd hi
  have hpos : 0 < (l.map Prod.snd).count i.2 := List.count_pos_iff.mpr hmem
  constructor
  · intro h
    by_contra hne
    have h2 : 1 < (l.map Prod.snd).count i.2 := by omega
    have : i.2 ∈ (l.map Prod.snd).filter
        (fun s => decide (1 < (l.map Prod.snd).count s)) :=
      List.mem_filter.mpr ⟨hmem, by simpa using h2⟩
    have := h i.2 this
    simp at this
  · intro h1 r hr
    have hr' := List.mem_filter.mp hr
    have hgt : 1 < (l.map Prod.snd).count r := by
      simpa using hr'.2
    simp only [decide_eq_true_eq]
    intro hEq
    rw [hEq] at h1
    omega

/-- Membership in the surviving list: the tuple was in the candidate
list and its string occurs exactly once overall. -/
theorem mem_remove_non_unique (l : List (String × String))
    (i : String × String) :
    i ∈ remove_non_unique_from_list l ↔
      i ∈ l ∧ (l.map Prod.snd).count i.2 = 1 := by
  rw [remove_non_unique_eq_filter, List.mem_filter]
  simp

/-- The survivors are a sublist of the candidate list (the removal step
preserves relative order). -/
theorem remove_non_unique_sublist (l : List (String × String)) :
    (remove_non_unique_from_list l).Sublist l := by
  rw [remove_non_unique_eq_filter]
  exact List.filter_sublist l

/-- The surviving strings are pairwise distinct. -/
theorem remove_non_unique_nodup_snd (l : List (String × String)) :
    ((remove_non_unique_from_list l).map Prod.snd).Nodup := by
  rw [List.nodup_iff_count_le_one]
  intro s
  by_cases hs : s ∈ (remove_non_unique_from_list l).map Prod.snd
  · obtain ⟨i, hi, hisnd⟩ := List.mem_map.mp hs
    have h1 : (l.map Prod.snd).count s = 1 := by
      have := (mem_remove_non_unique l i).mp hi
      rw [← hisnd]
      exact this.2
    have hsub : ((remove_non_unique_from_list l).map Prod.snd).Sublist
        (l.map Prod.snd) := (remove_non_unique_sublist l).map Prod.snd
    have := hsub.count_le s
    omega
  · rw [List.count_eq_zero_of_not_mem hs]
    omega

/-- When the strings of a list are already pairwise distinct, the
removal step removes nothing. -/
theorem remove_non_unique_eq_self (l : List (String × String))
    (h : (l.map Prod.snd).Nodup) : remove_non_unique_from_list l = l := by
  rw [remove_non_unique_eq_filter]
  refine List.filter_eq_self.mpr (fun i hi => ?_)
  have hmem : i.2 ∈ l.map Prod.snd := List.mem_map_of_mem Prod.snd hi
  simp [List.count_eq_one_of_mem h hmem]

/-! ### `sort_tmp_list` lemmas -/

instance : IsTotal (String × String)
    (fun a b : String × String => a.1 ≤ b.1) :=
  ⟨fun a b => le_total a.1 b.1⟩

instance : IsTrans (String × String)
    (fun a b : String × String => a.1 ≤ b.1) :=
  ⟨fun _ _ _ h h' => le_trans h h'⟩

/-- Sorting does not change the multiset of tuples. -/
theorem sort_tmp_perm (l : List (String × String)) :
    (sort_tmp_list l).Perm l :=
  List.perm_insertionSort _ l

/-- The sorted candidate list is sorted by function name. -/
theorem sort_tmp_sorted (l : List (String × String)) :
    List.Sorted (fun a b : String × String => a.1 ≤ b.1)
      (sort_tmp_list l) :=
  List.sorted_insertionSort _ l

/-- Sorting an already-sorted candidate list changes nothing. -/
theorem sort_tmp_idem (l : List (String × String)) :
    sort_tmp_list (sort_tmp_list l) = sort_tmp_list l :=
  (sort_tmp_sorted l).insertionSort_eq

/-! ### Dictionary lemmas -/

/-- The `any` test of `dictUpsert` is key membership. -/
theorem dict_any_iff (d : List (String × String)) (k : String) :
    d.any (fun p => decide (p.1 = k)) = true ↔ k ∈ d.map Prod.fst := by
  rw [List.any_eq_true]
  constructor
  · rintro ⟨p, hp, hpk⟩
    rw [decide_eq_true_eq] at hpk
    exact hpk ▸ List.mem_map_of_mem Prod.fst hp
  · intro hk
    obtain ⟨p, hp, hpk⟩ := List.mem_map.mp hk
    exact ⟨p, hp, by simpa using hpk⟩

/-- In-place update leaves the key sequence untouched. -/
theorem keys_upsert_of_mem (d : List (String × String)) (k v : String)
    (h : d.any (fun p => decide (p.1 = k)) = true) :
    (dictUpsert d k v).map Prod.fst = d.map Prod.fst := by
  unfold dictUpsert
  rw [if_pos h, List.map_map]
  refine List.map_congr_left (fun p _ => ?_)
  by_cases hpk : p.1 = k
  · simp [hpk]
  · simp [hpk]

/-- Appending a fresh key extends the key sequence by that key. -/
theorem keys_upsert_of_not_mem (d : List (String × String)) (k v : String)
    (h : ¬ d.any (fun p => decide (p.1 = k)) = true) :
    (dictUpsert d k v).map Prod.fst = d.map Prod.fst ++ [k] := by
  unfold dictUpsert
  rw [if_neg h, List.map_append]
  rfl

/-- A key is in the upserted dict iff it was there or was just added. -/
theorem mem_keys_upsert (d : List (String × String)) (k v x : String) :
    x ∈ (dictUpsert d k v).map Prod.fst ↔
      x ∈ d.map Prod.fst ∨ x = k := by
  by_cases h : d.any (fun p => decide (p.1 = k)) = true
  · rw [keys_upsert_of_mem d k v h]
    constructor
    · exact Or.inl
    · rintro (hx | rfl)
      · exact hx
      · exact (dict_any_iff d x).mp h
  · rw [keys_upsert_of_not_mem d k v h, List.mem_append]
    simp

/-- After upserting `(k, v)`, every entry carrying key `k` is `(k, v)`. -/
theorem entries_upsert_self (d : List (String × String)) (k v : String) :
    ∀ p ∈ dictUpsert d k v, p.1 = k → p = (k, v) := by
  intro p hp hpk
  unfold dictUpsert at hp
  by_cases h : d.any (fun p => decide (p.1 = k)) = true
  · rw [if_pos h] at hp
    obtain ⟨q, _, hq⟩ := List.mem_map.mp hp
    by_cases hqk : q.1 = k
    · rw [if_pos (by simpa using hqk)] at hq
      exact hq.symm
    · rw [if_neg (by simpa using hqk)] at hq
      exact absurd (hq ▸ hpk) hqk
  · rw [if_neg h] at hp
    rcases List.mem_append.mp hp with hp | hp
    · exact absurd ((dict_any_iff d k).mpr (hpk ▸ List.mem_map_of_mem Prod.fst hp)) h
    · simpa using hp

/-- Upserting a different key neither disturbs the entries carrying
key `k` nor introduces new ones. -/
theorem entries_upsert_preserve (d : List (String × String))
    (k v k' v' : String) (hkk : k ≠ k')
    (h : ∀ q ∈ d, q.1 = k → q = (k, v)) :
    ∀ p ∈ dictUpsert d k' v', p.1 = k → p = (k, v) := by
  intro p hp hpk
  unfold dictUpsert at hp
  by_cases hany : d.any (fun p => decide (p.1 = k')) = true
  · rw [if_pos hany] at hp
    obtain ⟨q, hq, hqe⟩ := List.mem_map.mp hp
    by_cases hqk : q.1 = k'
    · rw [if_pos (by simpa using hqk)] at hqe
      have : k' = k := by rw [← hqe] at hpk; exact hpk
      exact absurd this (Ne.symm hkk)
    · rw [if_neg (by simpa using hqk)] at hqe
      exact h p (hqe ▸ hq) hpk
  · rw [if_neg hany] at hp
    rcases List.mem_append.mp hp with hp | hp
    · exact h p hp hpk
    · have hpe : p = (k', v') := by simpa using hp
      have : k' = k := by rw [hpe] at hpk; exact hpk
      exact absurd this (Ne.symm hkk)

/-- Updating with pairs whose keys all avoid `k` preserves both the
membership of `k` and the shape of its entries. -/
theorem dictUpdate_preserve (ps : List (String × String)) :
    ∀ (d : List (String × String)) (k v : String),
      k ∉ ps.map Prod.fst →
      k ∈ d.map Prod.fst →
      (∀ q ∈ d, q.1 = k → q = (k, v)) →
      k ∈ (dictUpdate d ps).map Prod.fst ∧
        ∀ p ∈ dictUpdate d ps, p.1 = k → p = (k, v) := by
  induction ps with
  | nil => intro d k v _ hmem hent; exact ⟨hmem, hent⟩
  | cons q rest ih =>
      intro d k v hk hmem hent
      have hkq : k ≠ q.1 := by
        intro h
        exact hk (h ▸ List.mem_map_of_mem Prod.fst (List.mem_cons_self q rest))
      have hk' : k ∉ rest.map Prod.fst := by
        intro h
        exact hk (List.mem_map.mp h |>.elim
          (fun p hp => List.mem_map.mpr ⟨p, List.mem_cons_of_mem q hp.1, hp.2⟩))
      refine ih (dictUpsert d q.1 q.2) k v hk' ?_ ?_
      · exact (mem_keys_upsert d q.1 q.2 k).mpr (Or.inl hmem)
      · exact entries_upsert_preserve d k v q.1 q.2 hkq hent

/-- After `dictUpdate` with a duplicate-free pair list, each pair of
the list is a key of the result and owns every entry under its key. -/
theorem dictUpdate_entry_complete (ps : List (String × String)) :
    ∀ (d : List (String × String)) (k v : String),
      (ps.map Prod.fst).Nodup → (k, v) ∈ ps →
      k ∈ (dictUpdate d ps).map Prod.fst ∧
        ∀ p ∈ dictUpdate d ps, p.1 = k → p = (k, v) := by
  induction ps with
  | nil => intro d k v _ h; exact absurd h (List.not_mem_nil (k, v))
  | cons q rest ih =>
      intro d k v hnd hkv
      have hnd' : (rest.map Prod.fst).Nodup := (List.map_cons Prod.fst q rest ▸ hnd).of_cons
      rcases List.mem_cons.mp hkv with rfl | hkv
      · have hknotin : k ∉ rest.map Prod.fst := by
          have := List.map_cons Prod.fst (k, v) rest ▸ hnd
          exact (List.nodup_cons.mp this).1
        refine dictUpdate_preserve rest (dictUpsert d k v) k v hknotin ?_ ?_
        · exact (mem_keys_upsert d k v k).mpr (Or.inr rfl)
        · exact entries_upsert_self d k v
      · exact ih (dictUpsert d q.1 q.2) k v hnd' hkv

/-- An upsert whose key is present with the same value is a no-op. -/
theorem dictUpsert_eq_self (d : List (String × String)) (k v : String)
    (hmem : k ∈ d.map Prod.fst)
    (hent : ∀ p ∈ d, p.1 = k → p = (k, v)) :
    dictUpsert d k v = d := by
  unfold dictUpsert
  rw [if_pos ((dict_any_iff d k).mpr hmem)]
  refine List.map_congr_left (fun p hp => ?_) |>.trans (List.map_id d)
  by_cases hpk : p.1 = k
  · rw [if_pos (by simpa using hpk)]
    exact (hent p hp hpk).symm
  · rw [if_neg (by simpa using hpk)]
    rfl

/-- Updating with pairs that are all already present verbatim is a
no-op. -/
theorem dictUpdate_eq_self (ps : List (String × String)) :
    ∀ (d : List (String × String)),
      (∀ q ∈ ps, q.1 ∈ d.map Prod.fst ∧ ∀ p ∈ d, p.1 = q.1 → p = q) →
      dictUpdate d ps = d := by
  induction ps with
  | nil => intro d _; rfl
  | cons q rest ih =>
      intro d h
      have hq := h q (List.mem_cons_self q rest)
      have hq' : dictUpsert d q.1 q.2 = d := by
        have : (q.1, q.2) = q := rfl
        exact dictUpsert_eq_self d q.1 q.2 hq.1 (fun p hp hpk => this ▸ hq.2 p hp hpk)
      unfold dictUpdate
      rw [List.foldl_cons, hq']
      exact ih d (fun p hp => h p (List.mem_cons_of_mem q hp))

/-- Upserting preserves duplicate-freedom of the key sequence. -/
theorem keys_nodup_upsert (d : List (String × String)) (k v : String)
    (h : (d.map Prod.fst).Nodup) :
    ((dictUpsert d k v).map Prod.fst).Nodup := by
  by_cases hany : d.any (fun p => decide (p.1 = k)) = true
  · rw [keys_upsert_of_mem d k v hany]
    exact h
  · rw [keys_upsert_of_not_mem d k v hany]
    refine List.Nodup.append h (List.nodup_singleton k) ?_
    intro x hx hk2
    have hxk : x = k := by simpa using hk2
    exact hany ((dict_any_iff d k).mpr (hxk ▸ hx))

/-- Updating preserves duplicate-freedom of the key sequence. -/
theorem keys_nodup_update (ps : List (String × String)) :
    ∀ d, ((d : List (String × String)).map Prod.fst).Nodup →
      ((dictUpdate d ps).map Prod.fst).Nodup := by
  induction ps with
  | nil => intro d h; exact h
  | cons q rest ih =>
      intro d h
      exact ih (dictUpsert d q.1 q.2) (keys_nodup_upsert d q.1 q.2 h)

/-- A Python dict built from any pair list has pairwise-distinct keys. -/
theorem keys_nodup_dictOfPairs (ps : List (String × String)) :
    ((dictOfPairs ps).map Prod.fst).Nodup :=
  keys_nodup_update ps [] List.nodup_nil

/-- Key membership after an update: old keys plus the batch's keys. -/
theorem mem_keys_update (ps : List (String × String)) :
    ∀ d x, x ∈ (dictUpdate d ps).map Prod.fst ↔
      x ∈ (d : List (String × String)).map Prod.fst ∨ x ∈ ps.map Prod.fst := by
  induction ps with
  | nil => intro d x; simp [dictUpdate]
  | cons q rest ih =>
      intro d x
      unfold dictUpdate
      rw [List.foldl_cons]
      have := ih (dictUpsert d q.1 q.2) x
      unfold dictUpdate at this
      rw [this, mem_keys_upsert]
      simp only [List.map_cons, List.mem_cons]
      tauto

/-- Updating with pairs whose keys are all fresh and pairwise distinct
just appends the pairs. -/
theorem dictUpdate_eq_append (ps : List (String × String)) :
    ∀ d, (ps.map Prod.fst).Nodup →
      (∀ k ∈ ps.map Prod.fst, k ∉ (d : List (String × String)).map Prod.fst) →
      dictUpdate d ps = d ++ ps := by
  induction ps with
  | nil => intro d _ _; simp [dictUpdate]
  | cons q rest ih =>
      intro d hnd hfresh
      have hq : q.1 ∉ d.map Prod.fst :=
        hfresh q.1 (List.mem_map_of_mem Prod.fst (List.mem_cons_self q rest))
      have hup : dictUpsert d q.1 q.2 = d ++ [q] := by
        unfold dictUpsert
        rw [if_neg (fun h => hq ((dict_any_iff d q.1).mp h))]
      have hnd' : (rest.map Prod.fst).Nodup :=
        (List.map_cons Prod.fst q rest ▸ hnd).of_cons
      have hqrest : q.1 ∉ rest.map Prod.fst :=
        (List.nodup_cons.mp (List.map_cons Prod.fst q rest ▸ hnd)).1
      have hfresh2 : ∀ k ∈ rest.map Prod.fst, k ∉ (d ++ [q]).map Prod.fst := by
        intro k hk
        rw [List.map_append, List.mem_append]
        rintro (hkd | hkq)
        · exact hfresh k (List.mem_map.mpr
            (List.mem_map.mp hk |>.elim
              (fun p hp => ⟨p, List.mem_cons_of_mem q hp.1, hp.2⟩))) hkd
        · have : k = q.1 := by simpa using hkq
          exact hqrest (this ▸ hk)
      unfold dictUpdate
      rw [List.foldl_cons]
      show dictUpdate (dictUpsert d q.1 q.2) rest = d ++ q :: rest
      rw [hup, ih (d ++ [q]) hnd' hfresh2]
      simp

/-- Building `dict(pairs)` with pairwise-distinct keys gives the pair list itself. -/
theorem dictOfPairs_eq_self (ps : List (String × String))
    (h : (ps.map Prod.fst).Nodup) : dictOfPairs ps = ps := by
  unfold dictOfPairs
  rw [dictUpdate_eq_append ps [] h (by simp)]
  rfl

/-- A defined lookup is exactly key membership. -/
theorem dictLookup_isSome_iff (d : List (String × String)) (k : String) :
    (dictLookup d k).isSome = true ↔ k ∈ d.map Prod.fst := by
  unfold dictLookup
  cases hfind : d.find? (fun p => decide (p.1 = k)) with
  | none =>
      simp only [Option.map_none', Option.isSome_none]
      constructor
      · intro h
        exact absurd h Bool.false_ne_true
      · intro h
        obtain ⟨p, hp, hpk⟩ := List.mem_map.mp h
        have hex : (d.find? (fun p => decide (p.1 = k))).isSome = true :=
          List.find?_isSome.mpr ⟨p, hp, by simpa using hpk⟩
        rw [hfind] at hex
        exact absurd hex Bool.false_ne_true
  | some p =>
      simp only [Option.map_some', Option.isSome_some, true_iff]
      have hpk : p.1 = k := by simpa using List.find?_some hfind
      exact hpk ▸ List.mem_map_of_mem Prod.fst (List.mem_of_find?_eq_some hfind)

/-- A successful lookup returns an actual entry of the dict. -/
theorem dictLookup_some_mem (d : List (String × String)) (k v : String)
    (h : dictLookup d k = some v) : (k, v) ∈ d := by
  unfold dictLookup at h
  obtain ⟨p, hfind, hsnd⟩ := Option.map_eq_some'.mp h
  have hpk : p.1 = k := by simpa using List.find?_some hfind
  have : p = (k, v) := by
    obtain ⟨p1, p2⟩ := p
    simp only at hpk hsnd
    rw [hpk, hsnd]
  exact this ▸ List.mem_of_find?_eq_some hfind

/-- If `k` is a key and every entry under `k` is `(k, v)`, the lookup
returns `v`. -/
theorem dictLookup_eq_of_entries (d : List (String × String)) (k v : String)
    (hmem : k ∈ d.map Prod.fst)
    (hent : ∀ p ∈ d, p.1 = k → p = (k, v)) :
    dictLookup d k = some v := by
  unfold dictLookup
  have hsome : (d.find? (fun p => decide (p.1 = k))).isSome = true := by
    rw [List.find?_isSome]
    obtain ⟨p, hp, hpk⟩ := List.mem_map.mp hmem
    exact ⟨p, hp, by simpa using hpk⟩
  obtain ⟨p, hfind⟩ := Option.isSome_iff_exists.mp hsome
  have hpk : p.1 = k := by simpa using List.find?_some hfind
  have := hent p (List.mem_of_find?_eq_some hfind) hpk
  rw [hfind, this]
  rfl

/-! ### Normalization lemmas -/

/-- Quote removal is a plain filter, hence idempotent. -/
theorem removeQuotes_idem (s : String) :
    removeQuotes (removeQuotes s) = removeQuotes s := by
  refine String.ext ?_
  show ((s.data.filter fun c => decide (c ≠ '"')).filter
      fun c => decide (c ≠ '"')) =
    s.data.filter fun c => decide (c ≠ '"')
  rw [List.filter_filter]
  exact List.filter_congr (fun c _ => by simp)

/-- Quote removal leaves no double-quote character behind. -/
theorem removeQuotes_no_quote (s : String) :
    ∀ c ∈ (removeQuotes s).data, c ≠ '"' := by
  intro c hc
  have := List.mem_filter.mp hc
  simpa using this.2

/-- Collapsing backslashes only rearranges characters of the input. -/
theorem mem_collapseBackslashes (l : List Char) :
    ∀ c ∈ collapseBackslashes l, c ∈ l := by
  induction l using collapseBackslashes.induct with
  | case1 => intro c hc; exact absurd hc (List.not_mem_nil c)
  | case2 c => intro x hx; simpa [collapseBackslashes] using hx
  | case3 c₁ c₂ rest h ih =>
      intro x hx
      rw [collapseBackslashes, if_pos h] at hx
      rcases List.mem_cons.mp hx with rfl | hx
      · have h1 : c₁ = '\\' := by simpa using (Bool.and_elim_left h)
        exact h1 ▸ List.mem_cons_self c₁ (c₂ :: rest)
      · exact List.mem_cons_of_mem c₁ (List.mem_cons_of_mem c₂ (ih x hx))
  | case4 c₁ c₂ rest h ih =>
      intro x hx
      rw [collapseBackslashes, if_neg h] at hx
      rcases List.mem_cons.mp hx with rfl | hx
      · exact List.mem_cons_self x (c₂ :: rest)
      · exact List.mem_cons_of_mem c₁ (ih x hx)

/-- On text with no adjacent backslash pair, collapsing is the
identity. -/
theorem collapseBackslashes_eq_self (l : List Char)
    (h : hasAdjacentBackslashes l = false) : collapseBackslashes l = l := by
  induction l with
  | nil => rfl
  | cons c₁ rest ih =>
      cases rest with
      | nil => rfl
      | cons c₂ rest₂ =>
          rw [hasAdjacentBackslashes] at h
          have hpair := Bool.or_eq_false_iff.mp h
          rw [collapseBackslashes, if_neg (by simp [hpair.1]), ih hpair.2]

/-- The normalized value contains no double-quote character. -/
theorem normalizeValue_no_quote (s : String) :
    ∀ c ∈ (normalizeValue s).data, c ≠ '"' := by
  intro c hc
  exact removeQuotes_no_quote s c
    (mem_collapseBackslashes (removeQuotes s).data c hc)

/-- Quote removal is the identity on text without double quotes. -/
theorem removeQuotes_eq_self_of_no_quote (s : String)
    (h : ∀ c ∈ s.data, c ≠ '"') : removeQuotes s = s := by
  refine String.ext ?_
  show s.data.filter (fun c => decide (c ≠ '"')) = s.data
  exact List.filter_eq_self.mpr (fun c hc => by simpa using h c hc)

/-! ### Claim theorems -/

/-- Claim C1: in a single-file builder pass, the Associations produced
decompose function by function, and each function's Associations pair
its name only with literal values extracted from that function's own
body starting from an empty accumulator — no value extracted from the
N-th function leaks into the pairs of the (N+1)-th.  (The code achieves
this because the Python local `function_strings` aliases
`const_visitor.values` from the first iteration on, so `clear()` wipes
the visitor state before each subsequent function.) -/
theorem c1_builder_no_leak (ast : CNode) :
    newFilePairs ast =
      (locate_functions ast).flatMap
        (fun f => (locate_func_strings [] f).map (fun s => (f.1, s))) ∧
      ∀ p ∈ newFilePairs ast, ∃ f ∈ locate_functions ast,
        p.1 = f.1 ∧ p.2 ∈ locate_func_strings [] f := by
  refine ⟨builderLoop_fresh (locate_functions ast), ?_⟩
  intro p hp
  rw [newFilePairs, builderLoop_fresh] at hp
  obtain ⟨f, hf, hpf⟩ := List.mem_flatMap.mp hp
  obtain ⟨s, hs, hps⟩ := List.mem_map.mp hpf
  exact ⟨f, hf, by rw [← hps], by rw [← hps]; exact hs⟩

/-- Claim C4 as frozen is false on the code: the token text made of two
double-quote characters (an empty C string literal) fails the integer
parse, yet `visit_Constant` discards it because it strips to the empty
string — "keeps iff the integer parse fails" does not hold. -/
theorem c4_counterexample :
    pyIntParses ("\"\"") = false ∧ visit_Constant ("\"\"") [] = [] :=
  ⟨by decide, rfl⟩

/-- Claim C4 amended: the filter keeps a constant node's value iff its
literal text fails the integer parse AND the quote-stripped text is
nonempty; in particular "42" is discarded (it parses as an integer)
while "3.14" is retained (floating-point-looking text is not excluded). -/
theorem c4_amended :
    (∀ value values, visit_Constant value values ≠ values ↔
        (pyIntParses value = false ∧ removeQuotes value ≠ "")) ∧
      visit_Constant ("42") [] = [] ∧
      visit_Constant ("3.14") [] = [("3.14" : String)] := by
  refine ⟨?_, rfl, rfl⟩
  intro value values
  unfold visit_Constant
  cases hp : pyIntParses value with
  | true => simp
  | false =>
      simp only [Bool.false_eq_true, if_false]
      show (if removeQuotes value = "" then values
          else values ++ [removeQuotes value]) ≠ values ↔
        (True ∧ removeQuotes value ≠ "")
      by_cases hs : removeQuotes value = ""
      · simp [hs]
      · rw [if_neg hs]
        constructor
        · intro _
          exact ⟨trivial, hs⟩
        · intro _ hEq
          have hlen := congrArg List.length hEq
          rw [List.length_append] at hlen
          simp at hlen

/-- Claim C5 as frozen is false on the code: the value consisting of
two backslashes is itself normalization output (of four backslashes),
yet normalizing it again collapses it to a single backslash — the
quote-stripping/backslash-collapsing normalization is not idempotent. -/
theorem c5_counterexample :
    normalizeValue (normalizeValue ("\\\\\\\\")) ≠
      normalizeValue ("\\\\\\\\") := by decide

/-- Claim C5 amended: quote stripping alone is always idempotent, and
the full quote-stripping/backslash-collapsing normalization returns an
already-normalized value unchanged provided that value contains no
adjacent backslash pair (otherwise the second pass collapses it
further, as the counterexample shows). -/
theorem c5_amended (s : String)
    (h : hasAdjacentBackslashes (normalizeValue s).data = false) :
    normalizeValue (normalizeValue s) = normalizeValue s ∧
      removeQuotes (removeQuotes s) = removeQuotes s := by
  refine ⟨?_, removeQuotes_idem s⟩
  conv_lhs => rw [normalizeValue,
    removeQuotes_eq_self_of_no_quote (normalizeValue s)
      (normalizeValue_no_quote s),
    collapseBackslashes_eq_self (normalizeValue s).data h]

/-- Witness for `c5_amended` at a concrete already-collapsed value. -/
theorem c5_amended_witness :
    hasAdjacentBackslashes (normalizeValue ("ab\\c")).data = false ∧
      normalizeValue (normalizeValue ("ab\\c")) =
        normalizeValue ("ab\\c") :=
  ⟨by decide, (c5_amended ("ab\\c") (by decide)).1⟩

/-- Claim C6 as frozen is false on the code: for the token text
`"a\\b"` (quote, a, backslash, backslash, b, quote — an escaped
backslash inside a C string literal) the integer parse fails and the
value kept is the text with all quotes removed but with the escaped
backslash pair NOT collapsed, while the specified final value collapses
the pair; the two differ.  (Backslash collapsing only happens later, on
the serialized output of `Interface.process_out_data`.) -/
theorem c6_counterexample :
    pyIntParses ("\"a\\\\b\"") = false ∧
      visit_Constant ("\"a\\\\b\"") [] = [("a\\\\b" : String)] ∧
      specFinalValue ("\"a\\\\b\"") = ("a\\b" : String) ∧
      ("a\\\\b" : String) ≠ ("a\\b" : String) :=
  ⟨by decide, rfl, by decide, by decide⟩

/-- Claim C6 amended: for a constant node whose text fails the integer
parse, the value kept is the node's text with every double-quote
character removed (no backslash collapsing at extraction time), and a
value that is empty after this quote removal produces no Association. -/
theorem c6_amended (value : String) (values : List String)
    (h : pyIntParses value = false) :
    visit_Constant value values =
      if removeQuotes value = "" then values
      else values ++ [removeQuotes value] := by
  simp [visit_Constant, h]

/-- Witness for `c6_amended` at the token text of `"hi"`. -/
theorem c6_amended_witness :
    pyIntParses ("\"hi\"") = false ∧
      visit_Constant ("\"hi\"") [] =
        (if removeQuotes ("\"hi\"") = "" then ([] : List String)
         else [] ++ [removeQuotes ("\"hi\"")]) :=
  ⟨by decide, c6_amended ("\"hi\"") [] (by decide)⟩

/-- Claim C9: for the empty list of input files, `process_files` fails
with `NoFilesSpecifiedError` immediately — no syntax tree has been
requested from the external producer and the `Record` state (candidate
list and output mapping) is returned unchanged. -/
theorem c9_no_files_error (st : RState) :
    process_files [] st =
      Except.error (PipelineError.noFilesSpecified, st, []) := rfl

/-- Claim C10: the Associations surviving the removal step carry
pairwise-distinct literal values and appear in their original relative
order (a sublist of the candidate list); consequently the reverse
dictionary built from the sorted survivors has exactly one entry per
survivor — no within-batch key collision or silent loss. -/
theorem c10_no_batch_collision (l : List (String × String)) :
    ((remove_non_unique_from_list l).map Prod.snd).Nodup ∧
      (remove_non_unique_from_list l).Sublist l ∧
      (dictOfPairs ((sort_tmp_list (remove_non_unique_from_list l)).map
          (fun t => (t.2, t.1)))).length =
        (remove_non_unique_from_list l).length := by
  refine ⟨remove_non_unique_nodup_snd l, remove_non_unique_sublist l, ?_⟩
  have hkeys :
      ((sort_tmp_list (remove_non_unique_from_list l)).map
          (fun t => (t.2, t.1))).map Prod.fst =
        (sort_tmp_list (remove_non_unique_from_list l)).map Prod.snd := by
    rw [List.map_map]
    rfl
  have hnodup :
      ((sort_tmp_list (remove_non_unique_from_list l)).map
        Prod.snd).Nodup :=
    ((sort_tmp_perm (remove_non_unique_from_list l)).map
      Prod.snd).nodup_iff.mpr (remove_non_unique_nodup_snd l)
  rw [dictOfPairs_eq_self _ (by rw [hkeys]; exact hnodup), List.length_map]
  exact (sort_tmp_perm (remove_non_unique_from_list l)).length_eq

/-- Claim C3: in a run with a single adjudication (output mapping
initially empty), every key of the resulting Output Mapping is a
literal that occurred exactly once among the candidate list's
Associations; a literal bound to more than one Association never
becomes a key. -/
theorem c3_keys_occur_once (l : List (String × String)) (k : String)
    (hk : k ∈ ((integrate_list_to_dict ⟨[], l⟩).str_func_dict).map
      Prod.fst) :
    (l.map Prod.snd).count k = 1 := by
  have hd : (integrate_list_to_dict ⟨[], l⟩).str_func_dict =
      dictUpdate []
        (dictOfPairs
          ((sort_tmp_list (remove_non_unique_from_list l)).map
            (fun t => (t.2, t.1)))) := rfl
  rw [hd, mem_keys_update] at hk
  rcases hk with hk | hk
  · exact absurd hk (List.not_mem_nil k)
  · rw [dictOfPairs] at hk
    rw [mem_keys_update] at hk
    rcases hk with hk | hk
    · exact absurd hk (List.not_mem_nil k)
    · have hk2 : k ∈ (sort_tmp_list (remove_non_unique_from_list l)).map
          Prod.snd := by
        rcases List.mem_map.mp hk with ⟨p, hp, hpk⟩
        rcases List.mem_map.mp hp with ⟨q, hq, hqp⟩
        refine List.mem_map.mpr ⟨q, hq, ?_⟩
        rw [← hqp] at hpk
        exact hpk
      have hk3 : k ∈ (remove_non_unique_from_list l).map Prod.snd :=
        ((sort_tmp_perm (remove_non_unique_from_list l)).map
          Prod.snd).mem_iff.mp hk2
      obtain ⟨i, hi, hik⟩ := List.mem_map.mp hk3
      have := (mem_remove_non_unique l i).mp hi
      rw [← hik]
      exact this.2

/-- Witness for `c3_keys_occur_once` on a one-element candidate list. -/
theorem c3_witness :
    ("x" : String) ∈
        ((integrate_list_to_dict
            ⟨[], [(("f" : String), ("x" : String))]⟩).str_func_dict).map
          Prod.fst ∧
      (([(("f" : String), ("x" : String))] :
          List (String × String)).map Prod.snd).count ("x") = 1 :=
  ⟨by decide, c3_keys_occur_once [(("f" : String), ("x" : String))]
    ("x") (by decide)⟩

/-- Claim C2: whenever the candidate list consists of `f1` and `f2`
each holding the literal `shared` and `f1` additionally holding
`only_f1` (in any order, no other literals), adjudication into an
empty Output Mapping yields the entry `only_f1 -> f1` and no entry for
`shared`. -/
theorem c2_shared_excluded (l : List (String × String))
    (hperm : l.Perm [(("f1" : String), ("shared" : String)),
      (("f1" : String), ("only_f1" : String)),
      (("f2" : String), ("shared" : String))]) :
    dictLookup (integrate_list_to_dict ⟨[], l⟩).str_func_dict ("only_f1") =
        some ("f1") ∧
      dictLookup (integrate_list_to_dict ⟨[], l⟩).str_func_dict ("shared") =
        none := by
  have hsnd : (l.map Prod.snd).Perm
      [("shared" : String), ("only_f1" : String), ("shared" : String)] :=
    hperm.map Prod.snd
  have hsurv : remove_non_unique_from_list l =
      [(("f1" : String), ("only_f1" : String))] := by
    rw [remove_non_unique_eq_filter]
    have hcong : l.filter
        (fun i => decide ((l.map Prod.snd).count i.2 = 1)) =
      l.filter (fun i => decide
        (([("shared" : String), ("only_f1" : String),
          ("shared" : String)]).count i.2 = 1)) :=
      List.filter_congr (fun i _ => by rw [hsnd.count_eq i.2])
    rw [hcong]
    refine List.perm_singleton.mp ?_
    have hpf := hperm.filter (fun i : String × String => decide
      (([("shared" : String), ("only_f1" : String),
        ("shared" : String)]).count i.2 = 1))
    refine hpf.trans ?_
    decide
  have hd : (integrate_list_to_dict ⟨[], l⟩).str_func_dict =
      dictUpdate []
        (dictOfPairs
          ((sort_tmp_list (remove_non_unique_from_list l)).map
            (fun t => (t.2, t.1)))) := rfl
  rw [hd, hsurv]
  exact ⟨by decide, by decide⟩

/-- Witness for `c2_shared_excluded` at the canonical ordering of the
three Associations. -/
theorem c2_witness :
    dictLookup (integrate_list_to_dict
        ⟨[], [(("f1" : String), ("shared" : String)),
          (("f1" : String), ("only_f1" : String)),
          (("f2" : String), ("shared" : String))]⟩).str_func_dict
        ("only_f1") = some ("f1") ∧
      dictLookup (integrate_list_to_dict
        ⟨[], [(("f1" : String), ("shared" : String)),
          (("f1" : String), ("only_f1" : String)),
          (("f2" : String), ("shared" : String))]⟩).str_func_dict
        ("shared") = none :=
  c2_shared_excluded _ (List.Perm.refl _)

/-- Claim C8: merging a batch into the Output Mapping uses upsert
semantics — a key already present keeps membership but is silently
overwritten with the incoming batch's value, and no key is ever
deleted, so the mapping grows monotonically across successive
adjudications. -/
theorem c8_upsert_semantics (st : RState) (k : String) :
    ((dictLookup st.str_func_dict k).isSome = true →
      (dictLookup (add_unique_to_dict st).str_func_dict k).isSome = true) ∧
    (∀ v, dictLookup
        (dictOfPairs (st.tpl_list.map (fun t => (t.2, t.1)))) k = some v →
      dictLookup (add_unique_to_dict st).str_func_dict k = some v) := by
  have hd : (add_unique_to_dict st).str_func_dict =
      dictUpdate st.str_func_dict
        (dictOfPairs (st.tpl_list.map (fun t => (t.2, t.1)))) := rfl
  constructor
  · intro h
    rw [hd, dictLookup_isSome_iff, mem_keys_update]
    exact Or.inl ((dictLookup_isSome_iff st.str_func_dict k).mp h)
  · intro v hv
    have hkv := dictLookup_some_mem _ k v hv
    have := dictUpdate_entry_complete
      (dictOfPairs (st.tpl_list.map (fun t => (t.2, t.1))))
      st.str_func_dict k v
      (keys_nodup_dictOfPairs (st.tpl_list.map (fun t => (t.2, t.1)))) hkv
    rw [hd]
    exact dictLookup_eq_of_entries _ k v this.1 this.2

/-- Witness for `c8_upsert_semantics`: the key `old`, mapped to `g` by
an earlier batch, survives and is overwritten to `f` by the new batch. -/
theorem c8_witness :
    (dictLookup (RState.mk [(("old" : String), ("g" : String))]
        [(("f" : String), ("old" : String))]).str_func_dict
      ("old")).isSome = true ∧
    (dictLookup (add_unique_to_dict (RState.mk
        [(("old" : String), ("g" : String))]
        [(("f" : String), ("old" : String))])).str_func_dict
      ("old")).isSome = true ∧
    dictLookup (dictOfPairs
        (([(("f" : String), ("old" : String))] :
          List (String × String)).map (fun t => (t.2, t.1)))) ("old") =
      some ("f") ∧
    dictLookup (add_unique_to_dict (RState.mk
        [(("old" : String), ("g" : String))]
        [(("f" : String), ("old" : String))])).str_func_dict ("old") =
      some ("f") :=
  ⟨by decide,
    (c8_upsert_semantics (RState.mk [(("old" : String), ("g" : String))]
      [(("f" : String), ("old" : String))]) ("old")).1 (by decide),
    by decide,
    (c8_upsert_semantics (RState.mk [(("old" : String), ("g" : String))]
      [(("f" : String), ("old" : String))]) ("old")).2 ("f") (by decide)⟩

/-- Two `Record` states with equal fields are equal. -/
theorem rstate_eq_of_fields (a b : RState)
    (h1 : a.str_func_dict = b.str_func_dict)
    (h2 : a.tpl_list = b.tpl_list) : a = b := by
  cases a; cases b; simp_all

/-- Unfolding of the dictionary produced by one adjudication. -/
theorem integrate_dict_eq (st : RState) :
    (integrate_list_to_dict st).str_func_dict =
      dictUpdate st.str_func_dict
        (dictOfPairs
          ((sort_tmp_list (remove_non_unique_from_list st.tpl_list)).map
            (fun t => (t.2, t.1)))) := rfl

/-- Unfolding of the candidate list left behind by one adjudication. -/
theorem integrate_tpl_eq (st : RState) :
    (integrate_list_to_dict st).tpl_list =
      sort_tmp_list (remove_non_unique_from_list st.tpl_list) := rfl

/-- Claim C7 as frozen is false on the code: `integrate_list_to_dict`
has no clearing step, so after adjudicating the single Association
`(f, x)` the candidate list still holds that surviving Association
rather than being empty. -/
theorem c7_counterexample :
    (integrate_list_to_dict
        ⟨[], [(("f" : String), ("x" : String))]⟩).tpl_list ≠ [] := by
  decide

/-- Claim C7 amended: `adjudicate()` does NOT clear the Candidate
List — it leaves exactly the sorted surviving Associations in it.  A
hypothetical second invocation would therefore reprocess those
survivors, but harmlessly: it leaves the whole store (candidate list
and output mapping) unchanged. -/
theorem c7_amended (st : RState) :
    integrate_list_to_dict (integrate_list_to_dict st) =
        integrate_list_to_dict st ∧
      (integrate_list_to_dict st).tpl_list =
        sort_tmp_list (remove_non_unique_from_list st.tpl_list) := by
  refine ⟨?_, rfl⟩
  have hnodup : ((sort_tmp_list
      (remove_non_unique_from_list st.tpl_list)).map Prod.snd).Nodup :=
    ((sort_tmp_perm _).map Prod.snd).nodup_iff.mpr
      (remove_non_unique_nodup_snd st.tpl_list)
  have hrnu2 : remove_non_unique_from_list
      (sort_tmp_list (remove_non_unique_from_list st.tpl_list)) =
      sort_tmp_list (remove_non_unique_from_list st.tpl_list) :=
    remove_non_unique_eq_self _ hnodup
  refine rstate_eq_of_fields _ _ ?_ ?_
  · rw [integrate_dict_eq (integrate_list_to_dict st),
      integrate_tpl_eq st, hrnu2, sort_tmp_idem]
    refine dictUpdate_eq_self _ _ (fun q hq => ?_)
    have := dictUpdate_entry_complete
      (dictOfPairs
        ((sort_tmp_list (remove_non_unique_from_list st.tpl_list)).map
          (fun t => (t.2, t.1))))
      st.str_func_dict q.1 q.2
      (keys_nodup_dictOfPairs _) hq
    exact ⟨this.1, this.2⟩
  · rw [integrate_tpl_eq (integrate_list_to_dict st),
      integrate_tpl_eq st, hrnu2, sort_tmp_idem]
